import Mathlib

/-!
Verification development for the reddit comment collector
(`get_usernames_get_info.py` and `helpers/mergin_all_files_deduplicated.py`).

Strings are modelled as `List Char`, external services (the reddit API, the
fasttext language model, the sentiment pipeline) as function parameters or
explicit `Except` results, and the durable checkpoint file as the last list
of identity strings written to it.
-/

/-- Python whitespace (the ASCII characters recognised by `str.strip` and by
the regex class `\s`): space, tab, newline, carriage return, vertical tab,
form feed. -/
def pyIsSpace (c : Char) : Bool :=
  c = ' ' || c = '\t' || c = '\n' || c = '\r' || c = '\x0b' || c = '\x0c'

/-- The regex class `\S`: any non-whitespace character. -/
def nonspace (c : Char) : Bool := !(pyIsSpace c)

/-- Greedy consumption of the `\S+` tail of the URL regex `https?://\S+`:
succeeds only when at least one non-space character follows, and consumes the
whole non-space run, returning the remainder. -/
def consumeURL : List Char → Option (List Char)
  | [] => none
  | d :: t => if nonspace d then some (t.dropWhile nonspace) else none

/-- One attempted match of `https?://\S+` at the head of the list (the
alternatives are disjoint: after `http`, a literal `s` can never also begin
`://`, so no backtracking is lost). Returns the remainder after the match. -/
def matchURL : List Char → Option (List Char)
  | 'h' :: 't' :: 't' :: 'p' :: 's' :: ':' :: '/' :: '/' :: r => consumeURL r
  | 'h' :: 't' :: 't' :: 'p' :: ':' :: '/' :: '/' :: r => consumeURL r
  | _ => none

/-- Model of `re.sub(r"https?://\S+", "", text)`: scan left to right; at each position
either remove a leftmost match and continue after it, or keep the character
and continue with the tail. -/
def urlSub : List Char → List Char
  | [] => []
  | c :: cs =>
    match h : matchURL (c :: cs) with
    | some rest => urlSub rest
    | none => c :: urlSub cs
termination_by l => l.length
decreasing_by
  · unfold matchURL at h
    split at h
    · rename_i r heq
      cases r with
      | nil => simp [consumeURL] at h
      | cons d t =>
        simp only [consumeURL] at h
        split at h
        · cases h
          rw [heq]
          have hle : (t.dropWhile nonspace).length ≤ t.length :=
            (List.dropWhile_sublist nonspace).length_le
          simp only [List.length_cons]
          omega
        · cases h
    · rename_i r heq
      cases r with
      | nil => simp [consumeURL] at h
      | cons d t =>
        simp only [consumeURL] at h
        split at h
        · cases h
          rw [heq]
          have hle : (t.dropWhile nonspace).length ≤ t.length :=
            (List.dropWhile_sublist nonspace).length_le
          simp only [List.length_cons]
          omega
        · cases h
    · cases h
  · simp

/-- Python `text.replace("\n", " ")`, a single-character substitution. -/
def replaceNl (l : List Char) : List Char :=
  l.map fun c => if c = '\n' then ' ' else c

/-- Python `str.strip()`: drop leading whitespace, then trailing whitespace. -/
def pyStrip (l : List Char) : List Char :=
  ((l.dropWhile pyIsSpace).reverse.dropWhile pyIsSpace).reverse

/-- The function `clean_text` from `get_usernames_get_info.py`: remove URLs matching
`https?://\S+`, replace newlines with spaces, strip surrounding whitespace. -/
def clean_text (l : List Char) : List Char :=
  pyStrip (replaceNl (urlSub l))

/-- Whether `https?://\S+` matches at some position of the list (whether
`re.search` would find the pattern anywhere). -/
def hasMatch : List Char → Bool
  | [] => false
  | c :: cs => (matchURL (c :: cs)).isSome || hasMatch cs

/-- Python `str.lower()` applied characterwise. -/
def pyLower (l : List Char) : List Char := l.map Char.toLower

/-- Attempt to read the fasttext marker `__label__` at the head of the list,
returning the remainder. -/
def dropTag : List Char → Option (List Char)
  | '_' :: '_' :: 'l' :: 'a' :: 'b' :: 'e' :: 'l' :: '_' :: '_' :: r => some r
  | _ => none

/-- Python `label.replace("__label__", "")`: remove every occurrence of the
marker, scanning left to right. -/
def stripTag : List Char → List Char
  | [] => []
  | c :: cs =>
    match h : dropTag (c :: cs) with
    | some r => stripTag r
    | none => c :: stripTag cs
termination_by l => l.length
decreasing_by
  · unfold dropTag at h
    split at h
    · rename_i r2 heq
      cases h
      rw [heq]
      simp only [List.length_cons]
      omega
    · cases h
  · simp

/-- The constant `FT_THRESHOLD = 0.7` from the configuration block. -/
def FT_THRESHOLD : Rat := 7 / 10

/-- The function `detect_lang` from `get_usernames_get_info.py`. The fasttext model is an
external capability, modelled as a function from the cleaned, lower-cased
text to the `(labels, scores)` pair its `predict(text, k=1)` call returns
(the tuple-shape guards of the source are discharged by this typing).
Returns the ISO code stripped of the `__label__` marker when the top score
reaches the threshold, else `"unknown"`; empty cleaned text is `"unknown"`. -/
def detect_lang (predict : List Char → List (List Char) × List Rat) (threshold : Rat)
    (text : List Char) : List Char :=
  let cleaned := pyLower (clean_text text)
  if cleaned = [] then "unknown".toList
  else
    match predict cleaned with
    | (labels, scores) =>
      match labels, scores with
      | [], _ => "unknown".toList
      | _, [] => "unknown".toList
      | l0 :: _, s0 :: _ =>
        if threshold ≤ s0 then stripTag l0 else "unknown".toList

/-- Python dict assignment `out[label] = score`: overwrite an existing binding
in place, else append a new one (insertion order preserved). -/
def dictInsert (d : List (List Char × Rat)) (key : List Char) (v : Rat) :
    List (List Char × Rat) :=
  if (d.lookup key).isSome then
    d.map fun p => if p.1 = key then (key, v) else p
  else d ++ [(key, v)]

/-- The function `classify_sentiment` from `get_usernames_get_info.py`. The sentiment
pipeline (`return_all_scores=True`) is an external capability modelled as a
function from the truncated text to its result: a list whose first element is
the list of `(label, score)` entries. An empty result yields the empty dict;
otherwise each entry is written under its lower-cased label. -/
def classify_sentiment (sentPipe : List Char → List (List (List Char × Rat)))
    (text : List Char) : List (List Char × Rat) :=
  match sentPipe (text.take 512) with
  | [] => []
  | scores0 :: _ =>
    scores0.foldl (fun out e => dictInsert out (pyLower e.1) e.2) []

/-- A raw praw comment, restricted to the attributes the collector reads.
`body` is `none` when the attribute is null (`c.body or ""` then yields the
empty string). -/
structure RawComment where
  body : Option (List Char)
  id : String
  subreddit : String
  created_utc : Int
  score : Int
deriving DecidableEq

/-- One output row of `process_user_comments` (the dict built at its core). -/
structure ActivityRow where
  username : String
  comment_id : String
  subreddit : String
  created_utc : Int
  score : Int
  body_clean : List Char
  language : List Char
  sentiment : Option (List (List Char × Rat))
deriving DecidableEq

/-- The body of the per-comment loop of `process_user_comments`. -/
def processOne (predict : List Char → List (List Char) × List Rat)
    (sentPipe : List Char → List (List (List Char × Rat)))
    (username : String) (c : RawComment) : ActivityRow :=
  let body := c.body.getD []
  let clean_body := clean_text body
  let lang := detect_lang predict FT_THRESHOLD clean_body
  let sentiment :=
    if lang = "en".toList ∧ clean_body ≠ [] then
      some (classify_sentiment sentPipe clean_body)
    else none
  { username := username
    comment_id := c.id
    subreddit := c.subreddit
    created_utc := c.created_utc
    score := c.score
    body_clean := clean_body
    language := lang
    sentiment := sentiment }

/-- The function `process_user_comments` from `get_usernames_get_info.py`: one appended
row per raw comment, in order. -/
def process_user_comments (predict : List Char → List (List Char) × List Rat)
    (sentPipe : List Char → List (List (List Char × Rat)))
    (username : String) (raw_comments : List RawComment) : List ActivityRow :=
  raw_comments.map (processOne predict sentPipe username)

/-- The function `save_seen` from `get_usernames_get_info.py`: the content written to the
checkpoint file, `json.dump(sorted(seen_users), f)`. -/
def save_seen (seen : Finset String) : List String :=
  seen.sort (· ≤ ·)

/-- The startup load of the checkpoint: a missing file yields the empty set,
otherwise the set of the listed identity strings. -/
def load_seen (file : Option (List String)) : Finset String :=
  match file with
  | none => ∅
  | some l => l.toFinset

/-- The collector state the checkpoint code mutates: the in-memory seen set
and the durable file (modelled by the last content written to it). -/
structure BatchState where
  seen : Finset String
  checkpointFile : Option (List String)
deriving DecidableEq

/-- Model of `seen_users.add(uname)` followed by `save_seen()`. -/
def markSeen (uname : String) (st : BatchState) : BatchState :=
  let seen2 := insert uname st.seen
  { seen := seen2, checkpointFile := some (save_seen seen2) }

/-- The praw user attributes read when building a user metadata row; they are
fetched lazily by the library, outside the fetch try-block, so the access is
modelled as a separate fallible call. -/
structure UserMeta where
  created_utc : Int
  link_karma : Int
  comment_karma : Int
  is_mod : Bool
deriving DecidableEq

/-- The user metadata row built by `fetch_user_job`. -/
structure UserRow where
  username : String
  created_utc : Int
  link_karma : Int
  comment_karma : Int
  is_mod : Bool
  fetched_at : Int
deriving DecidableEq

/-- The user metadata row built by `run_single` (it additionally records a
trophy count, always zero, and the credential index used). -/
structure SingleUserRow where
  username : String
  created_utc : Int
  link_karma : Int
  comment_karma : Int
  is_mod : Bool
  trophy_count : Int
  fetched_at : Int
  client_idx : Nat
deriving DecidableEq

/-- The function `fetch_user_job` from `get_usernames_get_info.py`. `commentsFetch` is the
comment listing performed inside the try-block (an exception there is caught
and the job returns the failure result `none`); `metaFetch` is the lazy praw
attribute access performed while building the user row, outside the
try-block (an exception there propagates out of the job, state unchanged).
On success the comments are processed, the identity is marked seen and the
checkpoint rewritten, and the `(user_row, comment_rows)` pair returned. -/
def fetch_user_job (predict : List Char → List (List Char) × List Rat)
    (sentPipe : List Char → List (List (List Char × Rat)))
    (now : Int) (job : Nat × String)
    (commentsFetch : Except String (List RawComment))
    (metaFetch : Except String UserMeta)
    (st : BatchState) :
    Except String (Option (UserRow × List ActivityRow)) × BatchState :=
  match commentsFetch with
  | .error _ => (.ok none, st)
  | .ok raw_comments =>
    match metaFetch with
    | .error e => (.error e, st)
    | .ok meta =>
      let user_row : UserRow :=
        { username := job.2
          created_utc := meta.created_utc
          link_karma := meta.link_karma
          comment_karma := meta.comment_karma
          is_mod := meta.is_mod
          fetched_at := now }
      let comment_rows := process_user_comments predict sentPipe job.2 raw_comments
      (.ok (some (user_row, comment_rows)), markSeen job.2 st)

/-- The result-collection loop of `run_batch`: walk the futures in completion
order; `fut.result()` re-raises an exception raised inside a job, aborting
the loop (and hence the cycle, nothing is saved); a `None` result is logged
as a failed job and skipped; a successful pair is accumulated. -/
def collect_results :
    List (Except String (Option (UserRow × List ActivityRow))) →
    Except String (List (UserRow × List ActivityRow))
  | [] => .ok []
  | .error e :: _ => .error e
  | .ok none :: os => collect_results os
  | .ok (some r) :: os =>
    match collect_results os with
    | .error e => .error e
    | .ok rs => .ok (r :: rs)

/-- One iteration of the `run_single` stream loop, for one incoming comment
event. An absent author or an already-seen author is skipped. Otherwise the
identity is marked seen and the checkpoint rewritten FIRST; only then is the
user metadata fetched and the comment listing fetched and processed — both
outside any exception handler, so a failure propagates with the identity
already recorded as seen. -/
def run_single_step (predict : List Char → List (List Char) × List Rat)
    (sentPipe : List Char → List (List (List Char × Rat)))
    (now : Int) (client_idx : Nat) (author : Option String)
    (metaFetch : Except String UserMeta)
    (commentsFetch : Except String (List RawComment))
    (st : BatchState) :
    Except String (Option (SingleUserRow × List ActivityRow)) × BatchState :=
  match author with
  | none => (.ok none, st)
  | some uname =>
    if uname ∈ st.seen then (.ok none, st)
    else
      let st2 := markSeen uname st
      match metaFetch with
      | .error e => (.error e, st2)
      | .ok meta =>
        let user_row : SingleUserRow :=
          { username := uname
            created_utc := meta.created_utc
            link_karma := meta.link_karma
            comment_karma := meta.comment_karma
            is_mod := meta.is_mod
            trophy_count := 0
            fetched_at := now
            client_idx := client_idx }
        match commentsFetch with
        | .error e => (.error e, st2)
        | .ok raw =>
          (.ok (some (user_row, process_user_comments predict sentPipe uname raw)), st2)

/-- One admission step of the `run_batch` username-collection loop: an event
with an author not in `seen_users` appends the name to `fresh` (the guard is
the double-checked `c.author.name not in seen_users`; the `fresh` list itself
is never consulted). -/
def collect_step (seen : Finset String) (fresh : List String)
    (e : Option String) : List String :=
  match e with
  | none => fresh
  | some name => if name ∉ seen then fresh ++ [name] else fresh

/-- Whether an event would be admitted by `collect_step`: it has an author
and the author is not in the seen set. -/
def admissibleEvent (seen : Finset String) (e : Option String) : Bool :=
  match e with
  | none => false
  | some name => decide (name ∉ seen)

/-- The username-collection loop of `run_batch` over a stream of events:
process events in order, admitting via `collect_step`, and stop as soon as
`fresh` has reached `BATCH_SIZE` names (the source checks the bound right
after each append and again in the outer while condition). -/
def collect_fresh (seen : Finset String) (batchSize : Nat) :
    List (Option String) → List String → List String
  | [], fresh => fresh
  | e :: es, fresh =>
    if batchSize ≤ fresh.length then fresh
    else collect_fresh seen batchSize es (collect_step seen fresh e)

/-- The `k`-th element of `cycle(range(1, n + 1))` paired against the rest of
the released list, starting at offset `k`. -/
def zipCycle (n : Nat) : Nat → List String → List (Nat × String)
  | _, [] => []
  | k, u :: us => (k % n + 1, u) :: zipCycle n (k + 1) us

/-- Model of `jobs = list(zip(cycle(range(1, len(reddit_clients) + 1)), fresh))` from
`run_batch`: with no credentials the cycle is empty and `zip` yields nothing;
otherwise element `k` of the cycle is `k % n + 1`. -/
def mkJobs (n : Nat) (fresh : List String) : List (Nat × String) :=
  if n = 0 then [] else zipCycle n 0 fresh

/-- A dataframe row, modelled as an association list from column name to cell
value. -/
abbrev DFRow := List (String × String)

/-- First-seen-wins deduplication by a key function, the semantics of pandas
`drop_duplicates(subset=[...])` with the default `keep="first"`: a row is
kept when its key has not been seen in an earlier row. -/
def dedupFirstAux {α : Type} (key : α → Option String)
    (seenKeys : List (Option String)) : List α → List α
  | [] => []
  | r :: rs =>
    if key r ∈ seenKeys then dedupFirstAux key seenKeys rs
    else r :: dedupFirstAux key (key r :: seenKeys) rs

/-- The seen-key accumulator after `dedupFirstAux` has walked a list (proof
support for stating how the deduplication splits over appends). -/
def seenAfter {α : Type} (key : α → Option String)
    (s : List (Option String)) : List α → List (Option String)
  | [] => s
  | r :: rs =>
    if key r ∈ s then seenAfter key s rs else seenAfter key (key r :: s) rs

/-- Model of `df.drop_duplicates(subset=["id"])` from
`helpers/mergin_all_files_deduplicated.py`: pandas raises a `KeyError` when
the frame has no `id` column; otherwise duplicate rows by the `id` cell are
dropped, first occurrence kept. -/
def drop_duplicates_by_id (cols : List String) (rows : List DFRow) :
    Except String (List DFRow) :=
  if "id" ∈ cols then .ok (dedupFirstAux (fun r => r.lookup "id") [] rows)
  else .error "KeyError: id"

/-- The columns of the comment rows the collector writes (the keys of the
dict built in `process_user_comments`): the per-comment identifier is stored
under `comment_id`, not `id`. -/
def activityColumns : List String :=
  ["username", "comment_id", "subreddit", "created_utc", "score",
   "body_clean", "language", "sentiment"]

/-- A concrete comment row with the collector schema (the columns of
`activityColumns`), used by the consolidation counterexample. -/
def collectorRow : DFRow :=
  [("username", "alice"), ("comment_id", "c1"), ("subreddit", "s"),
   ("created_utc", "10"), ("score", "3"), ("body_clean", "hi"),
   ("language", "en"), ("sentiment", "")]

/-- Concrete artifact rows with an id column, used by the consolidation
witness. -/
def rowsW : List DFRow :=
  [[("id", "1"), ("body", "a")], [("id", "1"), ("body", "b")],
   [("id", "2"), ("body", "c")]]

/-- Concrete language predictor used by witnesses: always reports English
with confidence 9/10. -/
def pr0 : List Char → List (List Char) × List Rat :=
  fun _ => (["__label__en".toList], [9 / 10])

/-- Concrete sentiment pipeline used by witnesses: one full three-label
distribution. -/
def sp0 : List Char → List (List (List Char × Rat)) :=
  fun _ => [[("Positive".toList, 7 / 10), ("neutral".toList, 1 / 5),
             ("negative".toList, 1 / 10)]]

/-- Concrete comment with an English body, used by witnesses. -/
def cEn : RawComment :=
  { body := some "I love this".toList, id := "c1", subreddit := "s"
    created_utc := 10, score := 3 }

/-- Concrete comment with a null body, used by witnesses. -/
def cNull : RawComment :=
  { body := none, id := "c2", subreddit := "s", created_utc := 11, score := 0 }

/-- Concrete user row used by the failure-isolation counterexample. -/
def row0 : UserRow :=
  { username := "bob", created_utc := 0, link_karma := 0, comment_karma := 0
    is_mod := false, fetched_at := 0 }

theorem urlSub_nil : urlSub [] = [] := by rw [urlSub]

theorem urlSub_cons_some {c : Char} {cs rest : List Char}
    (h : matchURL (c :: cs) = some rest) : urlSub (c :: cs) = urlSub rest := by
  rw [urlSub, h]

theorem urlSub_cons_none {c : Char} {cs : List Char}
    (h : matchURL (c :: cs) = none) : urlSub (c :: cs) = c :: urlSub cs := by
  rw [urlSub, h]

/-- A successful match fixes the shape of the input: the literal scheme
characters, then at least one non-space character, and the remainder is the
input after the greedy non-space run. -/
theorem matchURL_some_shape {l rest : List Char} (h : matchURL l = some rest) :
    ∃ d t,
      (l = 'h' :: 't' :: 't' :: 'p' :: ':' :: '/' :: '/' :: d :: t ∨
       l = 'h' :: 't' :: 't' :: 'p' :: 's' :: ':' :: '/' :: '/' :: d :: t) ∧
      nonspace d = true ∧ rest = t.dropWhile nonspace := by
  unfold matchURL at h
  split at h
  · rename_i r
    cases r with
    | nil => simp [consumeURL] at h
    | cons d t =>
      simp only [consumeURL] at h
      split at h
      · rename_i hd
        cases h
        exact ⟨d, t, Or.inr rfl, hd, rfl⟩
      · cases h
  · rename_i r
    cases r with
    | nil => simp [consumeURL] at h
    | cons d t =>
      simp only [consumeURL] at h
      split at h
      · rename_i hd
        cases h
        exact ⟨d, t, Or.inl rfl, hd, rfl⟩
      · cases h
  · cases h

theorem matchURL_shape7 {d : Char} {t : List Char} (hd : nonspace d = true) :
    matchURL ('h' :: 't' :: 't' :: 'p' :: ':' :: '/' :: '/' :: d :: t) =
      some (t.dropWhile nonspace) := by
  simp [matchURL, consumeURL, hd]

theorem matchURL_shape8 {d : Char} {t : List Char} (hd : nonspace d = true) :
    matchURL ('h' :: 't' :: 't' :: 'p' :: 's' :: ':' :: '/' :: '/' :: d :: t) =
      some (t.dropWhile nonspace) := by
  simp [matchURL, consumeURL, hd]

/-- The pattern cannot match at a whitespace character. -/
theorem matchURL_space {w : Char} {ws : List Char} (hw : pyIsSpace w = true) :
    matchURL (w :: ws) = none := by
  have hwh : w ≠ 'h' := by
    rintro rfl
    simp [pyIsSpace] at hw
  unfold matchURL
  split
  · rename_i heq
    simp only [List.cons.injEq] at heq
    exact absurd heq.1 hwh
  · rename_i heq
    simp only [List.cons.injEq] at heq
    exact absurd heq.1 hwh
  · rfl

/-- The remainder after a match is empty or begins with whitespace (the
greedy `\S+` consumed the whole non-space run). -/
theorem matchURL_rest {l rest : List Char} (h : matchURL l = some rest) :
    rest = [] ∨ ∃ w ws, rest = w :: ws ∧ pyIsSpace w = true := by
  obtain ⟨d, t, hsh, hd, hrest⟩ := matchURL_some_shape h
  subst hrest
  cases hw : t.dropWhile nonspace with
  | nil => exact Or.inl rfl
  | cons w ws =>
    refine Or.inr ⟨w, ws, rfl, ?_⟩
    have hne : t.dropWhile nonspace ≠ [] := by simp [hw]
    have h2 := List.head_dropWhile_not nonspace t hne
    simp only [hw, List.head_cons] at h2
    simpa [nonspace] using h2

/-- If an all-non-space list is a front segment of `urlSub cs`, it is a front
segment of `cs` itself: a removal junction always has whitespace or the end of
the string on its right, so removals cannot manufacture a non-space run. -/
theorem urlSub_take_front {cs : List Char} : ∀ {q r : List Char},
    (∀ x ∈ q, nonspace x = true) → q ++ r = urlSub cs → ∃ s, q ++ s = cs := by
  induction cs using urlSub.induct with
  | case1 =>
    intro q r hq h
    rw [urlSub_nil] at h
    have hqn : q = [] := by
      cases q with
      | nil => rfl
      | cons a q2 => simp at h
    exact ⟨[], by simp [hqn]⟩
  | case2 c cs rest hm ih =>
    intro q r hq h
    rw [urlSub_cons_some hm] at h
    cases q with
    | nil => exact ⟨c :: cs, rfl⟩
    | cons a q2 =>
      exfalso
      rcases matchURL_rest hm with hr | ⟨w, ws, hr, hw⟩
      · subst hr
        rw [urlSub_nil] at h
        simp at h
      · subst hr
        rw [urlSub_cons_none (matchURL_space hw)] at h
        rw [List.cons_append, List.cons.injEq] at h
        have haw : a = w := h.1
        have hna : nonspace a = true := hq a (by simp)
        rw [haw] at hna
        simp [nonspace, hw] at hna
  | case3 c cs hm ih =>
    intro q r hq h
    rw [urlSub_cons_none hm] at h
    cases q with
    | nil => exact ⟨c :: cs, rfl⟩
    | cons a q2 =>
      rw [List.cons_append, List.cons.injEq] at h
      obtain ⟨hac, h2⟩ := h
      obtain ⟨s, hs⟩ := ih (fun x hx => hq x (by simp [hx])) h2
      exact ⟨s, by rw [List.cons_append, hac, hs]⟩

/-- Key step: if the pattern does not match at the head of `c :: cs`, it does
not match at the head of `c :: urlSub cs` either. -/
theorem matchURL_urlSub {c : Char} {cs : List Char}
    (h : matchURL (c :: cs) = none) : matchURL (c :: urlSub cs) = none := by
  cases hm : matchURL (c :: urlSub cs) with
  | none => rfl
  | some rest =>
    exfalso
    obtain ⟨d, t, hsh, hd, _⟩ := matchURL_some_shape hm
    rcases hsh with h7 | h8
    · rw [List.cons.injEq] at h7
      obtain ⟨hc, htl⟩ := h7
      have hq : ∀ x ∈ ('t' :: 't' :: 'p' :: ':' :: '/' :: '/' :: d :: ([] : List Char)),
          nonspace x = true := by
        intro x hx
        simp only [List.mem_cons, List.not_mem_nil, or_false] at hx
        rcases hx with rfl | rfl | rfl | rfl | rfl | rfl | rfl
        · decide
        · decide
        · decide
        · decide
        · decide
        · decide
        · exact hd
      have htl2 : ('t' :: 't' :: 'p' :: ':' :: '/' :: '/' :: d :: ([] : List Char)) ++ t
          = urlSub cs := by
        simp only [List.cons_append, List.nil_append]
        exact htl.symm
      obtain ⟨s, hs⟩ := urlSub_take_front hq htl2
      simp only [List.cons_append, List.nil_append] at hs
      rw [hc, ← hs, matchURL_shape7 hd] at h
      cases h
    · rw [List.cons.injEq] at h8
      obtain ⟨hc, htl⟩ := h8
      have hq : ∀ x ∈ ('t' :: 't' :: 'p' :: 's' :: ':' :: '/' :: '/' :: d :: ([] : List Char)),
          nonspace x = true := by
        intro x hx
        simp only [List.mem_cons, List.not_mem_nil, or_false] at hx
        rcases hx with rfl | rfl | rfl | rfl | rfl | rfl | rfl | rfl
        · decide
        · decide
        · decide
        · decide
        · decide
        · decide
        · decide
        · exact hd
      have htl2 : ('t' :: 't' :: 'p' :: 's' :: ':' :: '/' :: '/' :: d :: ([] : List Char)) ++ t
          = urlSub cs := by
        simp only [List.cons_append, List.nil_append]
        exact htl.symm
      obtain ⟨s, hs⟩ := urlSub_take_front hq htl2
      simp only [List.cons_append, List.nil_append] at hs
      rw [hc, ← hs, matchURL_shape8 hd] at h
      cases h

/-- The output of `urlSub` contains no remaining match of the URL pattern. -/
theorem hasMatch_urlSub (l : List Char) : hasMatch (urlSub l) = false := by
  induction l using urlSub.induct with
  | case1 => rw [urlSub_nil]; rfl
  | case2 c cs rest hm ih => rw [urlSub_cons_some hm]; exact ih
  | case3 c cs hm ih =>
    rw [urlSub_cons_none hm]
    simp only [hasMatch, Bool.or_eq_false_iff]
    exact ⟨by rw [matchURL_urlSub hm]; rfl, ih⟩

/-- A match at the head survives appending on the right. -/
theorem matchURL_append {u w : List Char} (h : (matchURL u).isSome = true) :
    (matchURL (u ++ w)).isSome = true := by
  cases hm : matchURL u with
  | none => rw [hm] at h; cases h
  | some rest =>
    obtain ⟨d, t, hsh, hd, _⟩ := matchURL_some_shape hm
    rcases hsh with h7 | h8
    · subst h7
      simp only [List.cons_append]
      rw [matchURL_shape7 hd]
      rfl
    · subst h8
      simp only [List.cons_append]
      rw [matchURL_shape8 hd]
      rfl

theorem hasMatch_append_right {u w : List Char} (h : hasMatch (u ++ w) = false) :
    hasMatch w = false := by
  induction u with
  | nil => simpa using h
  | cons a u2 ih =>
    rw [List.cons_append] at h
    simp only [hasMatch, Bool.or_eq_false_iff] at h
    exact ih h.2

theorem hasMatch_append_left {u w : List Char} (h : hasMatch (u ++ w) = false) :
    hasMatch u = false := by
  induction u with
  | nil => rfl
  | cons a u2 ih =>
    rw [List.cons_append] at h
    simp only [hasMatch, Bool.or_eq_false_iff] at h
    obtain ⟨h1, h2⟩ := h
    simp only [hasMatch, Bool.or_eq_false_iff]
    refine ⟨?_, ih h2⟩
    cases hmm : (matchURL (a :: u2)).isSome with
    | false => rfl
    | true =>
      have h3 := @matchURL_append (a :: u2) w hmm
      rw [List.cons_append] at h3
      rw [h1] at h3
      cases h3

theorem replaceNl_cons (c : Char) (cs : List Char) :
    replaceNl (c :: cs) = (if c = '\n' then ' ' else c) :: replaceNl cs := rfl

theorem nonspace_ne_space {d : Char} (hd : nonspace d = true) : d ≠ ' ' := by
  rintro rfl
  simp [nonspace, pyIsSpace] at hd

/-- Inverting the newline substitution on a cons cell whose visible head is
not a space: the original head must have been the same character. -/
theorem replaceNl_eq_cons {u : List Char} {c : Char} {t : List Char}
    (hc : c ≠ ' ') (h : replaceNl u = c :: t) :
    ∃ t0, u = c :: t0 ∧ replaceNl t0 = t := by
  cases u with
  | nil => simp [replaceNl] at h
  | cons a u0 =>
    rw [replaceNl_cons, List.cons.injEq] at h
    obtain ⟨h1, h2⟩ := h
    refine ⟨u0, ?_, h2⟩
    split at h1
    · exact absurd h1.symm hc
    · rw [h1]

/-- A match found after the newline substitution was already present before
it: the substitution only turns newlines into spaces, and neither the scheme
literals nor the `\S` character can be a space. -/
theorem matchURL_replaceNl {u : List Char}
    (h : (matchURL (replaceNl u)).isSome = true) : (matchURL u).isSome = true := by
  cases hm : matchURL (replaceNl u) with
  | none => rw [hm] at h; cases h
  | some rest =>
    obtain ⟨d, t, hsh, hd, _⟩ := matchURL_some_shape hm
    rcases hsh with h7 | h8
    · obtain ⟨t1, hu1, hr1⟩ := replaceNl_eq_cons (by decide) h7
      obtain ⟨t2, hu2, hr2⟩ := replaceNl_eq_cons (by decide) hr1
      obtain ⟨t3, hu3, hr3⟩ := replaceNl_eq_cons (by decide) hr2
      obtain ⟨t4, hu4, hr4⟩ := replaceNl_eq_cons (by decide) hr3
      obtain ⟨t5, hu5, hr5⟩ := replaceNl_eq_cons (by decide) hr4
      obtain ⟨t6, hu6, hr6⟩ := replaceNl_eq_cons (by decide) hr5
      obtain ⟨t7, hu7, hr7⟩ := replaceNl_eq_cons (by decide) hr6
      obtain ⟨t8, hu8, _⟩ := replaceNl_eq_cons (nonspace_ne_space hd) hr7
      rw [hu1, hu2, hu3, hu4, hu5, hu6, hu7, hu8, matchURL_shape7 hd]
      rfl
    · obtain ⟨t1, hu1, hr1⟩ := replaceNl_eq_cons (by decide) h8
      obtain ⟨t2, hu2, hr2⟩ := replaceNl_eq_cons (by decide) hr1
      obtain ⟨t3, hu3, hr3⟩ := replaceNl_eq_cons (by decide) hr2
      obtain ⟨t4, hu4, hr4⟩ := replaceNl_eq_cons (by decide) hr3
      obtain ⟨t5, hu5, hr5⟩ := replaceNl_eq_cons (by decide) hr4
      obtain ⟨t6, hu6, hr6⟩ := replaceNl_eq_cons (by decide) hr5
      obtain ⟨t7, hu7, hr7⟩ := replaceNl_eq_cons (by decide) hr6
      obtain ⟨t8, hu8, hr8⟩ := replaceNl_eq_cons (by decide) hr7
      obtain ⟨t9, hu9, _⟩ := replaceNl_eq_cons (nonspace_ne_space hd) hr8
      rw [hu1, hu2, hu3, hu4, hu5, hu6, hu7, hu8, hu9, matchURL_shape8 hd]
      rfl

theorem hasMatch_replaceNl {l : List Char} (h : hasMatch l = false) :
    hasMatch (replaceNl l) = false := by
  induction l with
  | nil => rfl
  | cons c cs ih =>
    simp only [hasMatch, Bool.or_eq_false_iff] at h
    obtain ⟨h1, h2⟩ := h
    rw [replaceNl_cons]
    simp only [hasMatch, Bool.or_eq_false_iff]
    refine ⟨?_, ih h2⟩
    cases hm : (matchURL ((if c = '\n' then ' ' else c) :: replaceNl cs)).isSome with
    | false => rfl
    | true =>
      rw [show ((if c = '\n' then ' ' else c) :: replaceNl cs) = replaceNl (c :: cs) from
        (replaceNl_cons c cs).symm] at hm
      have h3 := matchURL_replaceNl hm
      rw [h1] at h3
      cases h3

theorem dropWhile_front_own (p : Char → Bool) (l : List Char) :
    ∃ u, u ++ l.dropWhile p = l := by
  induction l with
  | nil => exact ⟨[], rfl⟩
  | cons c cs ih =>
    rw [List.dropWhile_cons]
    split
    · obtain ⟨u, hu⟩ := ih
      exact ⟨c :: u, by rw [List.cons_append, hu]⟩
    · exact ⟨[], rfl⟩

theorem hasMatch_dropWhile (p : Char → Bool) : ∀ {l : List Char},
    hasMatch l = false → hasMatch (l.dropWhile p) = false := by
  intro l h
  induction l with
  | nil => exact h
  | cons c cs ih =>
    rw [List.dropWhile_cons]
    split
    · apply ih
      simp only [hasMatch, Bool.or_eq_false_iff] at h
      exact h.2
    · exact h

theorem hasMatch_pyStrip {l : List Char} (h : hasMatch l = false) :
    hasMatch (pyStrip l) = false := by
  have hA : hasMatch (l.dropWhile pyIsSpace) = false := hasMatch_dropWhile pyIsSpace h
  obtain ⟨u, hu⟩ := dropWhile_front_own pyIsSpace (l.dropWhile pyIsSpace).reverse
  have h2 := congrArg List.reverse hu
  simp only [List.reverse_append, List.reverse_reverse] at h2
  rw [← h2] at hA
  exact hasMatch_append_left hA

theorem urlSub_eq_self {l : List Char} (h : hasMatch l = false) : urlSub l = l := by
  induction l with
  | nil => exact urlSub_nil
  | cons c cs ih =>
    simp only [hasMatch, Bool.or_eq_false_iff] at h
    obtain ⟨h1, h2⟩ := h
    have hm : matchURL (c :: cs) = none := by
      cases hm2 : matchURL (c :: cs) with
      | none => rfl
      | some r => rw [hm2] at h1; cases h1
    rw [urlSub_cons_none hm, ih h2]

theorem mem_replaceNl_ne_nl {x : Char} {l : List Char} (hx : x ∈ replaceNl l) :
    x ≠ '\n' := by
  unfold replaceNl at hx
  rw [List.mem_map] at hx
  obtain ⟨a, _, ha⟩ := hx
  intro hxe
  rw [hxe] at ha
  split at ha
  · simp at ha
  · rename_i hne
    exact hne ha

theorem replaceNl_eq_self {l : List Char} (h : ∀ x ∈ l, x ≠ '\n') :
    replaceNl l = l := by
  induction l with
  | nil => rfl
  | cons c cs ih =>
    rw [replaceNl_cons, if_neg (h c (by simp)), ih (fun x hx => h x (by simp [hx]))]

theorem mem_of_dropWhile_own {p : Char → Bool} {x : Char} {l : List Char}
    (hx : x ∈ l.dropWhile p) : x ∈ l := by
  obtain ⟨u, hu⟩ := dropWhile_front_own p l
  rw [← hu]
  exact List.mem_append_right u hx

theorem mem_pyStrip {x : Char} {l : List Char} (hx : x ∈ pyStrip l) : x ∈ l := by
  unfold pyStrip at hx
  rw [List.mem_reverse] at hx
  have h1 := mem_of_dropWhile_own hx
  rw [List.mem_reverse] at h1
  exact mem_of_dropWhile_own h1

theorem dropWhile_eq_self_of_head {p : Char → Bool} {l : List Char}
    (h : ∀ c cs, l = c :: cs → p c = false) : l.dropWhile p = l := by
  cases l with
  | nil => rfl
  | cons c cs => simp [List.dropWhile_cons, h c cs rfl]

theorem dropWhile_head_false {p : Char → Bool} {l : List Char} {c : Char} {cs : List Char}
    (h : l.dropWhile p = c :: cs) : p c = false := by
  induction l with
  | nil => cases h
  | cons a l2 ih =>
    rw [List.dropWhile_cons] at h
    split at h
    · exact ih h
    · rename_i hpa
      rw [List.cons.injEq] at h
      rw [← h.1]
      simpa using hpa

theorem pyStrip_idem (l : List Char) : pyStrip (pyStrip l) = pyStrip l := by
  have h1 : (pyStrip l).dropWhile pyIsSpace = pyStrip l := by
    apply dropWhile_eq_self_of_head
    intro c cs hc
    obtain ⟨u, hu⟩ := dropWhile_front_own pyIsSpace (l.dropWhile pyIsSpace).reverse
    have h2 := congrArg List.reverse hu
    simp only [List.reverse_append, List.reverse_reverse] at h2
    have hAc : l.dropWhile pyIsSpace = c :: (cs ++ u.reverse) := by
      rw [← h2]
      show pyStrip l ++ u.reverse = c :: (cs ++ u.reverse)
      rw [hc, List.cons_append]
    exact @dropWhile_head_false pyIsSpace l c (cs ++ u.reverse) hAc
  have h2 : (pyStrip l).reverse.dropWhile pyIsSpace = (pyStrip l).reverse := by
    apply dropWhile_eq_self_of_head
    intro c cs hc
    have hzr : (pyStrip l).reverse = (l.dropWhile pyIsSpace).reverse.dropWhile pyIsSpace := by
      show (((l.dropWhile pyIsSpace).reverse.dropWhile pyIsSpace).reverse).reverse = _
      rw [List.reverse_reverse]
    rw [hzr] at hc
    exact @dropWhile_head_false pyIsSpace (l.dropWhile pyIsSpace).reverse c cs hc
  show (((pyStrip l).dropWhile pyIsSpace).reverse.dropWhile pyIsSpace).reverse = pyStrip l
  rw [h1, h2, List.reverse_reverse]

/-- C10: clean_text is idempotent — for every input string t,
clean_text (clean_text t) = clean_text t: removing URLs, replacing newlines
with spaces, and trimming a second time leaves the result unchanged. -/
theorem clean_text_idempotent (t : List Char) :
    clean_text (clean_text t) = clean_text t := by
  have hm0 : hasMatch (urlSub t) = false := hasMatch_urlSub t
  have hm1 : hasMatch (replaceNl (urlSub t)) = false := hasMatch_replaceNl hm0
  have hm2 : hasMatch (clean_text t) = false := hasMatch_pyStrip hm1
  have hnl : ∀ x ∈ clean_text t, x ≠ '\n' := fun x hx =>
    mem_replaceNl_ne_nl (mem_pyStrip hx)
  show pyStrip (replaceNl (urlSub (clean_text t))) = clean_text t
  rw [urlSub_eq_self hm2, replaceNl_eq_self hnl]
  exact pyStrip_idem (replaceNl (urlSub t))

theorem zipCycle_getq (n : Nat) : ∀ (us : List String) (k0 k : Nat)
    (h2 : k < us.length),
    (zipCycle n k0 us)[k]? = some ((k0 + k) % n + 1, us.get ⟨k, h2⟩) := by
  intro us
  induction us with
  | nil =>
    intro k0 k h2
    exact absurd h2 (by simp)
  | cons u us2 ih =>
    intro k0 k h2
    cases k with
    | zero => simp [zipCycle]
    | succ k2 =>
      have h3 : k2 < us2.length := by
        simpa using h2
      rw [show zipCycle n k0 (u :: us2) = (k0 % n + 1, u) :: zipCycle n (k0 + 1) us2
        from rfl]
      rw [List.getElem?_cons_succ, ih (k0 + 1) k2 h3]
      have harith : k0 + 1 + k2 = k0 + (k2 + 1) := by omega
      simp [harith, List.get_eq_getElem]

/-- C3: strict round-robin job assignment — for a released list against n
credentials (n positive), the job built for identity k (0-indexed) is
assigned credential index (k mod n) + 1; the assignment is fixed at build
time, before any job runs, hence independent of job outcomes. -/
theorem round_robin_assignment (n : Nat) (fresh : List String) (hn : 0 < n)
    (k : Nat) (hk : k < fresh.length) :
    (mkJobs n fresh)[k]? = some (k % n + 1, fresh.get ⟨k, hk⟩) := by
  unfold mkJobs
  rw [if_neg (by omega)]
  have h := zipCycle_getq n fresh 0 k hk
  simpa using h

theorem round_robin_assignment_witness :
    (mkJobs 3 ["a", "b", "c", "d"])[3]? = some (1, "d") := by
  rw [round_robin_assignment 3 ["a", "b", "c", "d"] (by decide) 3 (by decide)]
  decide

/-- C8: checkpoint round trip — loading a missing checkpoint file yields the
empty set; markProcessed (seen_users.add + save_seen) rewrites the durable
file with the full sorted seen set; and for every set of identity strings,
loading the file written by save_seen yields back exactly that set. -/
theorem checkpoint_roundtrip (S : Finset String) (u : String)
    (f : Option (List String)) :
    load_seen none = ∅ ∧
    List.Sorted (· ≤ ·) (save_seen S) ∧
    load_seen (some (save_seen S)) = S ∧
    (markSeen u ⟨S, f⟩).seen = insert u S ∧
    (markSeen u ⟨S, f⟩).checkpointFile = some (save_seen (insert u S)) := by
  refine ⟨rfl, Finset.sort_sorted _ S, ?_, rfl, rfl⟩
  show (Finset.sort (· ≤ ·) S).toFinset = S
  exact Finset.sort_toFinset _ S

/-- C4: a job whose fetch raises returns the distinguished failure result
none, and the collector state is unchanged: the identity is not added to the
seen set, the checkpoint file is not rewritten, and the identity therefore
remains eligible for rediscovery. -/
theorem fetch_failure_contained (predict : List Char → List (List Char) × List Rat)
    (sentPipe : List Char → List (List (List Char × Rat)))
    (now : Int) (job : Nat × String) (e : String)
    (metaFetch : Except String UserMeta) (st : BatchState) :
    fetch_user_job predict sentPipe now job (.error e) metaFetch st = (.ok none, st) :=
  rfl

/-- C5 counterexample: an exception raised after the fetch, while building
the user metadata row, is not caught by the job (the try-block covers only
the fetch), and the result-collection loop re-raises it, so the completed
sibling result in the same batch is never collected. -/
theorem failure_isolation_counterexample :
    (fetch_user_job pr0 sp0 0 (1, "alice") (.ok []) (.error "boom")
        ⟨∅, none⟩).1 = .error "boom" ∧
    collect_results [.error "boom", .ok (some (row0, []))] = .error "boom" :=
  ⟨rfl, rfl⟩

/-- C5 amended: a job whose fetch (the region inside the exception handler)
raises yields the failure result with the state unchanged — the failed
identity does not appear in the checkpoint afterward — and the collection
loop skips such a failed job and still collects all sibling results;
exceptions raised after the fetch, however, escape the job and abort the
collection loop (see the counterexample). -/
theorem failure_isolation (predict : List Char → List (List Char) × List Rat)
    (sentPipe : List Char → List (List (List Char × Rat)))
    (now : Int) (job : Nat × String) (e : String)
    (metaFetch : Except String UserMeta) (st : BatchState)
    (os : List (Except String (Option (UserRow × List ActivityRow))))
    (hu : job.2 ∉ st.seen) :
    fetch_user_job predict sentPipe now job (.error e) metaFetch st = (.ok none, st) ∧
    job.2 ∉ (fetch_user_job predict sentPipe now job (.error e) metaFetch st).2.seen ∧
    collect_results (.ok none :: os) = collect_results os :=
  ⟨rfl, hu, rfl⟩

theorem failure_isolation_witness :
    fetch_user_job pr0 sp0 0 (1, "alice") (.error "net") (.ok ⟨0, 0, 0, false⟩)
        ⟨∅, none⟩ = (.ok none, ⟨∅, none⟩) ∧
    "alice" ∉ (fetch_user_job pr0 sp0 0 (1, "alice") (.error "net")
        (.ok ⟨0, 0, 0, false⟩) ⟨∅, none⟩).2.seen ∧
    collect_results (.ok none :: [.ok (some (row0, []))]) =
      collect_results [.ok (some (row0, []))] :=
  failure_isolation pr0 sp0 0 (1, "alice") "net" (.ok ⟨0, 0, 0, false⟩)
    ⟨∅, none⟩ [.ok (some (row0, []))] (by decide)

/-- C2 (code bug, single-identity path): run_single records the identity as
seen and rewrites the checkpoint before attempting its fetch, so when the
fetch then fails the identity is already persisted as processed — contrary
to the mutated-only-by-successful-completion invariant (which the batch-mode
job does satisfy). -/
theorem single_mode_marks_before_fetch :
    run_single_step pr0 sp0 0 1 (some "alice") (.error "err") (.ok []) ⟨∅, none⟩
      = (.error "err",
         ⟨insert "alice" ∅, some (save_seen (insert "alice" ∅))⟩) := by
  rfl

theorem collect_step_none (seen : Finset String) (fresh : List String) :
    collect_step seen fresh none = fresh := rfl

theorem collect_step_some (seen : Finset String) (fresh : List String)
    (name : String) :
    collect_step seen fresh (some name)
      = if name ∉ seen then fresh ++ [name] else fresh := rfl

theorem collect_step_length (seen : Finset String) (fresh : List String)
    (e : Option String) :
    (collect_step seen fresh e).length ≤ fresh.length + 1 := by
  cases e with
  | none => simp [collect_step_none]
  | some name =>
    rw [collect_step_some]
    split
    · simp
    · simp

theorem collect_fresh_length_eq (seen : Finset String) (bs : Nat) :
    ∀ (events : List (Option String)) (fresh : List String),
      fresh.length ≤ bs →
      bs ≤ fresh.length + events.countP (admissibleEvent seen) →
      (collect_fresh seen bs events fresh).length = bs := by
  intro events
  induction events with
  | nil =>
    intro fresh h1 h2
    simp only [List.countP_nil, Nat.add_zero] at h2
    show fresh.length = bs
    omega
  | cons e es ih =>
    intro fresh h1 h2
    rw [collect_fresh]
    split
    · rename_i hb
      omega
    · rename_i hnb
      have hlt : fresh.length < bs := by omega
      have hstep := collect_step_length seen fresh e
      rw [List.countP_cons] at h2
      apply ih
      · omega
      · cases e with
        | none =>
          rw [collect_step_none]
          have hadm : admissibleEvent seen none = false := rfl
          rw [hadm] at h2
          simp at h2
          omega
        | some name =>
          by_cases hn : name ∈ seen
          · have hadm : admissibleEvent seen (some name) = false := by
              simp [admissibleEvent, hn]
            rw [hadm] at h2
            simp at h2
            rw [collect_step_some, if_neg (by simp [hn])]
            omega
          · have hadm : admissibleEvent seen (some name) = true := by
              simp [admissibleEvent, hn]
            rw [hadm] at h2
            simp at h2
            rw [collect_step_some, if_pos hn]
            simp only [List.length_append, List.length_cons, List.length_nil]
            omega

theorem collect_fresh_mem (seen : Finset String) (bs : Nat) :
    ∀ (events : List (Option String)) (fresh : List String) (x : String),
      x ∈ collect_fresh seen bs events fresh → x ∈ fresh ∨ x ∉ seen := by
  intro events
  induction events with
  | nil =>
    intro fresh x h
    exact Or.inl h
  | cons e es ih =>
    intro fresh x h
    rw [collect_fresh] at h
    split at h
    · exact Or.inl h
    · rcases ih _ x h with h2 | h2
      · cases e with
        | none =>
          rw [collect_step_none] at h2
          exact Or.inl h2
        | some name =>
          rw [collect_step_some] at h2
          split at h2
          · rcases List.mem_append.mp h2 with h3 | h3
            · exact Or.inl h3
            · rename_i hns
              have hx : x = name := by simpa using h3
              subst hx
              exact Or.inr hns
          · exact Or.inl h2
      · exact Or.inr h2

/-- C1 amended: in batch mode the accumulator stops once exactly BATCH_SIZE
names have accumulated (given enough admissible events), and every released
name is absent from the checkpointed seen set; but deduplication is only
against that seen set — there is no in-cycle reservation — so a fresh author
repeating within the cycle can occupy several slots of the released list
(see the counterexample). -/
theorem batch_accumulator_release (seen : Finset String) (bs : Nat)
    (events : List (Option String))
    (h : bs ≤ events.countP (admissibleEvent seen)) :
    (collect_fresh seen bs events []).length = bs ∧
    ∀ x ∈ collect_fresh seen bs events [], x ∉ seen := by
  constructor
  · exact collect_fresh_length_eq seen bs events [] (by simp) (by simpa using h)
  · intro x hx
    rcases collect_fresh_mem seen bs events [] x hx with h2 | h2
    · simp at h2
    · exact h2

theorem batch_accumulator_release_witness :
    (collect_fresh (∅ : Finset String) 2
        [some "alice", some "bob", some "carol"] []).length = 2 ∧
    ∀ x ∈ collect_fresh (∅ : Finset String) 2
        [some "alice", some "bob", some "carol"] [], x ∉ (∅ : Finset String) :=
  batch_accumulator_release ∅ 2 [some "alice", some "bob", some "carol"]
    (by decide)

/-- C1 counterexample: with BATCH_SIZE 2 and the same fresh author appearing
twice before any checkpoint update, the released list is full but contains
that author twice — the admission guard consults only seen_users, never the
in-cycle fresh list, so the released identities are not pairwise distinct. -/
theorem batch_accumulator_duplicate :
    collect_fresh (∅ : Finset String) 2 [some "alice", some "alice"] []
      = ["alice", "alice"] ∧
    ¬ List.Nodup ["alice", "alice"] := by
  constructor
  · decide
  · decide

/-- C9: process_user_comments produces exactly one output row per input
comment, in input order — row k carries the id of comment k — and the
username field of every output row equals the given username. -/
theorem process_rows (predict : List Char → List (List Char) × List Rat)
    (sentPipe : List Char → List (List (List Char × Rat)))
    (u : String) (cs : List RawComment) :
    (process_user_comments predict sentPipe u cs).length = cs.length ∧
    ∀ k (h1 : k < (process_user_comments predict sentPipe u cs).length)
      (h2 : k < cs.length),
      ((process_user_comments predict sentPipe u cs).get ⟨k, h1⟩).username = u ∧
      ((process_user_comments predict sentPipe u cs).get ⟨k, h1⟩).comment_id
        = (cs.get ⟨k, h2⟩).id := by
  constructor
  · simp [process_user_comments]
  · intro k h1 h2
    constructor
    · simp only [process_user_comments, List.get_eq_getElem, List.getElem_map]
      rfl
    · simp only [process_user_comments, List.get_eq_getElem, List.getElem_map]
      rfl

theorem process_rows_witness :
    ((process_user_comments pr0 sp0 "alice" [cEn, cNull]).get
        ⟨1, by decide⟩).username = "alice" ∧
    ((process_user_comments pr0 sp0 "alice" [cEn, cNull]).get
        ⟨1, by decide⟩).comment_id = "c2" :=
  (process_rows pr0 sp0 "alice" [cEn, cNull]).2 1 (by decide) (by decide)

theorem clean_text_nil : clean_text [] = [] := by
  show pyStrip (replaceNl (urlSub [])) = []
  rw [urlSub_nil]
  rfl

theorem lookup_cons_self (a : List Char) (b : Rat) (l : List (List Char × Rat)) :
    ((a, b) :: l).lookup a = some b := by
  simp [List.lookup]

theorem lookup_cons_ne (a x : List Char) (b : Rat) (l : List (List Char × Rat))
    (h : x ≠ a) : ((a, b) :: l).lookup x = l.lookup x := by
  simp only [List.lookup]
  rw [show (x == a) = false from by simpa using h]

theorem lookup_map_replace (d : List (List Char × Rat)) (k : List Char) (v : Rat) :
    (d.map fun p => if p.1 = k then (k, v) else p).lookup k =
      if (d.lookup k).isSome = true then some v else none := by
  induction d with
  | nil => rfl
  | cons a ds ih =>
    obtain ⟨a1, a2⟩ := a
    rw [List.map_cons]
    by_cases hak : a1 = k
    · subst hak
      rw [show (if (a1, a2).1 = a1 then (a1, v) else (a1, a2)) = (a1, v) from
        if_pos rfl]
      rw [lookup_cons_self, lookup_cons_self]
      rfl
    · rw [show (if (a1, a2).1 = k then (k, v) else (a1, a2)) = (a1, a2) from
        if_neg hak]
      rw [lookup_cons_ne a1 k a2 _ (fun h2 => hak h2.symm)]
      rw [lookup_cons_ne a1 k a2 ds (fun h2 => hak h2.symm)]
      exact ih

theorem lookup_map_replace_ne (d : List (List Char × Rat)) (k : List Char)
    (v : Rat) (k2 : List Char) (hne : k2 ≠ k) :
    (d.map fun p => if p.1 = k then (k, v) else p).lookup k2 = d.lookup k2 := by
  induction d with
  | nil => rfl
  | cons a ds ih =>
    obtain ⟨a1, a2⟩ := a
    rw [List.map_cons]
    by_cases hak : a1 = k
    · subst hak
      rw [show (if (a1, a2).1 = a1 then (a1, v) else (a1, a2)) = (a1, v) from
        if_pos rfl]
      rw [lookup_cons_ne a1 k2 v _ hne, lookup_cons_ne a1 k2 a2 ds hne]
      exact ih
    · rw [show (if (a1, a2).1 = k then (k, v) else (a1, a2)) = (a1, a2) from
        if_neg hak]
      by_cases h2a : k2 = a1
      · subst h2a
        rw [lookup_cons_self, lookup_cons_self]
      · rw [lookup_cons_ne a1 k2 a2 _ h2a, lookup_cons_ne a1 k2 a2 ds h2a]
        exact ih

theorem lookup_append_none {d e : List (List Char × Rat)} {k : List Char}
    (h : d.lookup k = none) : (d ++ e).lookup k = e.lookup k := by
  induction d with
  | nil => rfl
  | cons a ds ih =>
    obtain ⟨a1, a2⟩ := a
    by_cases hk : k = a1
    · subst hk
      rw [lookup_cons_self] at h
      cases h
    · rw [List.cons_append, lookup_cons_ne a1 k a2 _ hk]
      rw [lookup_cons_ne a1 k a2 ds hk] at h
      exact ih h

theorem lookup_append_single_ne (d : List (List Char × Rat)) (k : List Char)
    (v : Rat) (k2 : List Char) (hne : k2 ≠ k) :
    (d ++ [(k, v)]).lookup k2 = d.lookup k2 := by
  induction d with
  | nil =>
    show ([(k, v)] : List (List Char × Rat)).lookup k2 = none
    rw [lookup_cons_ne k k2 v [] hne]
    rfl
  | cons a ds ih =>
    obtain ⟨a1, a2⟩ := a
    by_cases h2a : k2 = a1
    · subst h2a
      rw [List.cons_append, lookup_cons_self, lookup_cons_self]
    · rw [List.cons_append, lookup_cons_ne a1 k2 a2 _ h2a]
      rw [lookup_cons_ne a1 k2 a2 ds h2a]
      exact ih

theorem dictInsert_lookup_self (d : List (List Char × Rat)) (k : List Char)
    (v : Rat) : (dictInsert d k v).lookup k = some v := by
  unfold dictInsert
  split
  · rename_i hs
    rw [lookup_map_replace, if_pos hs]
  · rename_i hns
    rw [lookup_append_none (Option.not_isSome_iff_eq_none.mp hns)]
    exact lookup_cons_self k v []

theorem dictInsert_lookup_ne (d : List (List Char × Rat)) (k : List Char)
    (v : Rat) (k2 : List Char) (hne : k2 ≠ k) :
    (dictInsert d k v).lookup k2 = d.lookup k2 := by
  unfold dictInsert
  split
  · exact lookup_map_replace_ne d k v k2 hne
  · exact lookup_append_single_ne d k v k2 hne

theorem foldl_dictInsert_mem (entries : List (List Char × Rat)) :
    ∀ (d : List (List Char × Rat)) (k : List Char),
      ((d.lookup k).isSome = true ∨ ∃ e ∈ entries, pyLower e.1 = k) →
      ((entries.foldl (fun out e => dictInsert out (pyLower e.1) e.2) d).lookup
        k).isSome = true := by
  induction entries with
  | nil =>
    intro d k h
    rcases h with h | ⟨e, he, _⟩
    · exact h
    · simp at he
  | cons e es ih =>
    intro d k h
    rw [List.foldl_cons]
    apply ih
    by_cases hk : pyLower e.1 = k
    · left
      rw [← hk, dictInsert_lookup_self]
      rfl
    · rcases h with h | ⟨e2, he2, hke⟩
      · left
        rw [dictInsert_lookup_ne d (pyLower e.1) e.2 k (fun h2 => hk h2.symm)]
        exact h
      · rcases List.mem_cons.mp he2 with rfl | hme
        · exact absurd hke hk
        · right
          exact ⟨e2, hme, hke⟩

theorem dictInsert_mem {d : List (List Char × Rat)} {k : List Char} {v : Rat}
    {p : List Char × Rat} (hp : p ∈ dictInsert d k v) : p ∈ d ∨ p = (k, v) := by
  unfold dictInsert at hp
  split at hp
  · rw [List.mem_map] at hp
    obtain ⟨q, hq, hqe⟩ := hp
    split at hqe
    · exact Or.inr hqe.symm
    · exact Or.inl (hqe ▸ hq)
  · rcases List.mem_append.mp hp with h | h
    · exact Or.inl h
    · right
      simpa using h

theorem foldl_dictInsert_from (entries : List (List Char × Rat)) :
    ∀ (d : List (List Char × Rat)) (p : List Char × Rat),
      p ∈ entries.foldl (fun out e => dictInsert out (pyLower e.1) e.2) d →
      p ∈ d ∨ ∃ e ∈ entries, p = (pyLower e.1, e.2) := by
  induction entries with
  | nil =>
    intro d p h
    exact Or.inl h
  | cons e es ih =>
    intro d p h
    rw [List.foldl_cons] at h
    rcases ih _ p h with h2 | ⟨e2, he2, hpe⟩
    · rcases dictInsert_mem h2 with h3 | h3
      · exact Or.inl h3
      · exact Or.inr ⟨e, by simp, h3⟩
    · exact Or.inr ⟨e2, by simp [he2], hpe⟩

/-- C6: the language gate of process_user_comments — sentiment is present in
a row iff the detected language is the target "en" and the cleaned text is
non-empty; empty cleaned text yields language "unknown" with sentiment
absent; and a present sentiment is the full distribution: it holds an entry
for every (lower-cased) label the pipeline returned, and every entry of it
comes from a returned label with its score. -/
theorem language_gate (predict : List Char → List (List Char) × List Rat)
    (sentPipe : List Char → List (List (List Char × Rat)))
    (u : String) (c : RawComment) :
    ((processOne predict sentPipe u c).sentiment ≠ none ↔
      ((processOne predict sentPipe u c).language = "en".toList ∧
       (processOne predict sentPipe u c).body_clean ≠ [])) ∧
    (clean_text (c.body.getD []) = [] →
      (processOne predict sentPipe u c).language = "unknown".toList ∧
      (processOne predict sentPipe u c).sentiment = none) ∧
    (∀ d, (processOne predict sentPipe u c).sentiment = some d →
      (∀ e ∈ (sentPipe ((clean_text (c.body.getD [])).take 512)).headD [],
        (d.lookup (pyLower e.1)).isSome = true) ∧
      (∀ p ∈ d, ∃ e ∈ (sentPipe ((clean_text (c.body.getD [])).take 512)).headD [],
        p = (pyLower e.1, e.2))) := by
  have hs : (processOne predict sentPipe u c).sentiment =
      (if (detect_lang predict FT_THRESHOLD (clean_text (c.body.getD []))
            = "en".toList ∧ clean_text (c.body.getD []) ≠ []) then
        some (classify_sentiment sentPipe (clean_text (c.body.getD [])))
      else none) := rfl
  have hl : (processOne predict sentPipe u c).language =
      detect_lang predict FT_THRESHOLD (clean_text (c.body.getD [])) := rfl
  have hb : (processOne predict sentPipe u c).body_clean =
      clean_text (c.body.getD []) := rfl
  refine ⟨?_, ?_, ?_⟩
  · rw [hs, hl, hb]
    by_cases hc : (detect_lang predict FT_THRESHOLD (clean_text (c.body.getD []))
        = "en".toList ∧ clean_text (c.body.getD []) ≠ [])
    · rw [if_pos hc]
      simp [hc]
    · rw [if_neg hc]
      simp only [ne_eq, not_true_eq_false, false_iff]
      intro h2
      exact hc h2
  · intro hempty
    constructor
    · rw [hl]
      unfold detect_lang
      rw [hempty, clean_text_nil]
      rfl
    · rw [hs, if_neg]
      intro hc
      exact hc.2 hempty
  · intro d hd
    rw [hs] at hd
    split at hd
    · rename_i hc
      rw [Option.some.injEq] at hd
      subst hd
      unfold classify_sentiment
      cases hsp : sentPipe ((clean_text (c.body.getD [])).take 512) with
      | nil =>
        constructor
        · intro e he
          simp at he
        · intro p hp
          simp at hp
      | cons s0 rest =>
        constructor
        · intro e he
          simp only [List.headD_cons] at he
          show ((s0.foldl (fun out e => dictInsert out (pyLower e.1) e.2)
            []).lookup (pyLower e.1)).isSome = true
          exact foldl_dictInsert_mem s0 [] (pyLower e.1) (Or.inr ⟨e, he, rfl⟩)
        · intro p hp
          have hp2 : p ∈ s0.foldl (fun out e => dictInsert out (pyLower e.1) e.2)
            [] := hp
          rcases foldl_dictInsert_from s0 [] p hp2 with h2 | ⟨e, he, hpe⟩
          · simp at h2
          · exact ⟨e, by simpa using he, hpe⟩
    · cases hd

theorem language_gate_witness :
    ((processOne pr0 sp0 "alice" cEn).sentiment ≠ none ↔
      ((processOne pr0 sp0 "alice" cEn).language = "en".toList ∧
       (processOne pr0 sp0 "alice" cEn).body_clean ≠ [])) ∧
    (clean_text (cEn.body.getD []) = [] →
      (processOne pr0 sp0 "alice" cEn).language = "unknown".toList ∧
      (processOne pr0 sp0 "alice" cEn).sentiment = none) ∧
    (∀ d, (processOne pr0 sp0 "alice" cEn).sentiment = some d →
      (∀ e ∈ (sp0 ((clean_text (cEn.body.getD [])).take 512)).headD [],
        (d.lookup (pyLower e.1)).isSome = true) ∧
      (∀ p ∈ d, ∃ e ∈ (sp0 ((clean_text (cEn.body.getD [])).take 512)).headD [],
        p = (pyLower e.1, e.2))) :=
  language_gate pr0 sp0 "alice" cEn

theorem dedupAux_cons {α : Type} (key : α → Option String)
    (s : List (Option String)) (r : α) (rs : List α) :
    dedupFirstAux key s (r :: rs) =
      if key r ∈ s then dedupFirstAux key s rs
      else r :: dedupFirstAux key (key r :: s) rs := rfl

theorem seenAfter_cons {α : Type} (key : α → Option String)
    (s : List (Option String)) (r : α) (rs : List α) :
    seenAfter key s (r :: rs) =
      if key r ∈ s then seenAfter key s rs
      else seenAfter key (key r :: s) rs := rfl

theorem dedupAux_append {α : Type} (key : α → Option String) :
    ∀ (l1 l2 : List α) (s : List (Option String)),
      dedupFirstAux key s (l1 ++ l2) =
        dedupFirstAux key s l1 ++ dedupFirstAux key (seenAfter key s l1) l2 := by
  intro l1
  induction l1 with
  | nil =>
    intro l2 s
    rfl
  | cons r rs ih =>
    intro l2 s
    rw [List.cons_append, dedupAux_cons, dedupAux_cons, seenAfter_cons]
    by_cases hk : key r ∈ s
    · rw [if_pos hk, if_pos hk, if_pos hk, ih]
    · rw [if_neg hk, if_neg hk, if_neg hk, ih, List.cons_append]

theorem seenAfter_mono {α : Type} (key : α → Option String) :
    ∀ (l : List α) (s : List (Option String)) (k : Option String),
      k ∈ s → k ∈ seenAfter key s l := by
  intro l
  induction l with
  | nil =>
    intro s k h
    exact h
  | cons r rs ih =>
    intro s k h
    rw [seenAfter_cons]
    by_cases hk : key r ∈ s
    · rw [if_pos hk]
      exact ih s k h
    · rw [if_neg hk]
      exact ih (key r :: s) k (by simp [h])

theorem seenAfter_covers {α : Type} (key : α → Option String) :
    ∀ (l : List α) (s : List (Option String)) (x : α),
      x ∈ l → key x ∈ seenAfter key s l := by
  intro l
  induction l with
  | nil =>
    intro s x h
    simp at h
  | cons r rs ih =>
    intro s x h
    rw [seenAfter_cons]
    rcases List.mem_cons.mp h with heq | hm
    · subst heq
      by_cases hk : key x ∈ s
      · rw [if_pos hk]
        exact seenAfter_mono key rs s (key x) hk
      · rw [if_neg hk]
        exact seenAfter_mono key rs (key x :: s) (key x) (by simp)
    · by_cases hk : key r ∈ s
      · rw [if_pos hk]
        exact ih s x hm
      · rw [if_neg hk]
        exact ih (key r :: s) x hm

theorem dedupAux_all_seen {α : Type} (key : α → Option String) :
    ∀ (l : List α) (s : List (Option String)),
      (∀ x ∈ l, key x ∈ s) → dedupFirstAux key s l = [] := by
  intro l
  induction l with
  | nil =>
    intro s _
    rfl
  | cons r rs ih =>
    intro s h
    rw [dedupAux_cons, if_pos (h r (by simp))]
    exact ih s (fun x hx => h x (by simp [hx]))

theorem dedupAux_idem {α : Type} (key : α → Option String) :
    ∀ (l : List α) (s : List (Option String)),
      dedupFirstAux key s (dedupFirstAux key s l) = dedupFirstAux key s l := by
  intro l
  induction l with
  | nil =>
    intro s
    rfl
  | cons r rs ih =>
    intro s
    rw [dedupAux_cons]
    by_cases hk : key r ∈ s
    · rw [if_pos hk]
      exact ih s
    · rw [if_neg hk, dedupAux_cons, if_neg hk, ih (key r :: s)]

theorem dedupAux_first_seen {α : Type} (key : α → Option String) :
    ∀ (l : List α) (s : List (Option String)) (r : α),
      r ∈ dedupFirstAux key s l →
      ∃ i, ∃ hi : i < l.length, l.get ⟨i, hi⟩ = r ∧ key r ∉ s ∧
        ∀ j (hj : j < l.length), j < i → key (l.get ⟨j, hj⟩) ≠ key r := by
  intro l
  induction l with
  | nil =>
    intro s r h
    simp [dedupFirstAux] at h
  | cons x xs ih =>
    intro s r h
    rw [dedupAux_cons] at h
    by_cases hk : key x ∈ s
    · rw [if_pos hk] at h
      obtain ⟨i, hi, hget, hns, hearly⟩ := ih s r h
      refine ⟨i + 1, by simpa using hi, by simpa using hget, hns, ?_⟩
      intro j hj hji
      cases j with
      | zero =>
        show key x ≠ key r
        intro hxr
        exact hns (hxr ▸ hk)
      | succ j2 =>
        have hj2 : j2 < xs.length := by simpa using hj
        have h3 := hearly j2 hj2 (by omega)
        simpa using h3
    · rw [if_neg hk] at h
      rcases List.mem_cons.mp h with heq | hm
      · subst heq
        exact ⟨0, by simp, rfl, hk, by omega⟩
      · obtain ⟨i, hi, hget, hns, hearly⟩ := ih (key x :: s) r hm
        have hnr : key r ∉ s := fun h2 => hns (by simp [h2])
        have hxr : key x ≠ key r := fun h2 => hns (by simp [h2])
        refine ⟨i + 1, by simpa using hi, by simpa using hget, hnr, ?_⟩
        intro j hj hji
        cases j with
        | zero => exact hxr
        | succ j2 =>
          have hj2 : j2 < xs.length := by simpa using hj
          have h3 := hearly j2 hj2 (by omega)
          simpa using h3

theorem dedupAux_key_covered {α : Type} (key : α → Option String) :
    ∀ (l : List α) (s : List (Option String)) (x : α), x ∈ l →
      key x ∈ s ∨ ∃ p ∈ dedupFirstAux key s l, key p = key x := by
  intro l
  induction l with
  | nil =>
    intro s x h
    simp at h
  | cons r rs ih =>
    intro s x h
    rw [dedupAux_cons]
    rcases List.mem_cons.mp h with heq | hm
    · subst heq
      by_cases hk : key x ∈ s
      · exact Or.inl hk
      · rw [if_neg hk]
        exact Or.inr ⟨x, by simp, rfl⟩
    · by_cases hk : key r ∈ s
      · rw [if_pos hk]
        exact ih s x hm
      · rw [if_neg hk]
        rcases ih (key r :: s) x hm with h2 | ⟨p, hp, hpe⟩
        · rcases List.mem_cons.mp h2 with h3 | h3
          · exact Or.inr ⟨r, by simp, h3.symm⟩
          · exact Or.inl h3
        · exact Or.inr ⟨p, by simp [hp], hpe⟩

/-- C7 amended: the merge helper deduplicates keyed by the column named id,
keeping the first-seen row per key — over frames that have an id column it
is idempotent, concatenating the same artifact set twice changes nothing,
each kept row is the first row bearing its key, and every key present in the
input survives; but the collector stores the per-comment identifier under
comment_id, not id, so over collector-produced artifacts the job fails with
a missing-column error (see the counterexample). -/
theorem consolidation_dedup (cols : List String) (rows : List DFRow)
    (hid : "id" ∈ cols) :
    drop_duplicates_by_id cols (rows ++ rows) = drop_duplicates_by_id cols rows ∧
    ∀ out, drop_duplicates_by_id cols rows = .ok out →
      drop_duplicates_by_id cols out = .ok out ∧
      (∀ r ∈ out, ∃ i, ∃ hi : i < rows.length, rows.get ⟨i, hi⟩ = r ∧
        ∀ j (hj : j < rows.length), j < i →
          (rows.get ⟨j, hj⟩).lookup "id" ≠ r.lookup "id") ∧
      (∀ r ∈ rows, ∃ p ∈ out, p.lookup "id" = r.lookup "id") := by
  constructor
  · unfold drop_duplicates_by_id
    rw [if_pos hid, if_pos hid]
    rw [dedupAux_append (fun r => r.lookup "id") rows rows []]
    rw [dedupAux_all_seen (fun r => r.lookup "id") rows
      (seenAfter (fun r => r.lookup "id") [] rows)
      (fun x hx => seenAfter_covers (fun r => r.lookup "id") rows [] x hx)]
    rw [List.append_nil]
  · intro out hout
    unfold drop_duplicates_by_id at hout
    rw [if_pos hid] at hout
    rw [Except.ok.injEq] at hout
    subst hout
    refine ⟨?_, ?_, ?_⟩
    · unfold drop_duplicates_by_id
      rw [if_pos hid, dedupAux_idem (fun r => r.lookup "id") rows []]
    · intro r hr
      obtain ⟨i, hi, hget, _, hearly⟩ :=
        dedupAux_first_seen (fun r => r.lookup "id") rows [] r hr
      exact ⟨i, hi, hget, hearly⟩
    · intro r hr
      rcases dedupAux_key_covered (fun r => r.lookup "id") rows [] r hr with
        h2 | ⟨p, hp, hpe⟩
      · simp at h2
      · exact ⟨p, hp, hpe⟩

theorem consolidation_dedup_witness :
    drop_duplicates_by_id ["id"] (rowsW ++ rowsW) =
      drop_duplicates_by_id ["id"] rowsW :=
  (consolidation_dedup ["id"] rowsW (by decide)).1

/-- C7 counterexample: the comment rows of the collector carry the per-comment
identifier under the column comment_id — there is no id column — so
ConsolidationJob applied to collector-produced rows raises the pandas
KeyError instead of deduplicating by the comment identifier of the collector. -/
theorem consolidation_keyerror :
    ¬ ("id" ∈ activityColumns) ∧
    drop_duplicates_by_id activityColumns [collectorRow] =
      .error "KeyError: id" := by
  constructor
  · decide
  · rfl
